import Mathlib

/-!
Verification of `scripts/generate_headers.py` (MicroPDF header generator).

Strings are modelled as `List Char`; every Python helper of the conversion
pipeline is translated into an executable Lean function, and the claims of the
specification are settled as theorems about these functions.
-/

namespace GenHeaders

/-- Python strings are modelled as lists of characters. -/
abbrev Str := List Char

/-- The whitespace characters recognised by Python's `str.strip` and the
regex class `\s` (for the ASCII inputs handled by the script). -/
def isWsChar (c : Char) : Bool :=
  c = ' ' || c = '\t' || c = '\n' || c = '\r' || c = '\x0b' || c = '\x0c'

/-- `str.strip()`: drop whitespace from both ends. -/
def strip (l : Str) : Str :=
  ((l.dropWhile isWsChar).reverse.dropWhile isWsChar).reverse

/-- `str.startswith(pat)`. -/
def begins : Str → Str → Bool
  | [], _ => true
  | _ :: _, [] => false
  | a :: pat, b :: l => if a = b then begins pat l else false

/-- Python substring containment `pat in s`. -/
def hasSub (pat : Str) : Str → Bool
  | [] => begins pat []
  | l@(_ :: rest) => begins pat l || hasSub pat rest

/-- `s.split('::')`, as the head segment plus the remaining segments
(the result of `split` is always a non-empty list of segments). -/
def splitSep : Str → Str × List Str
  | [] => ([], [])
  | [c] => ([c], [])
  | c :: d :: rest =>
    if c = ':' ∧ d = ':' then
      let r := splitSep rest
      ([], r.1 :: r.2)
    else
      let r := splitSep (d :: rest)
      (c :: r.1, r.2)

/-- `s.split('::')[-1]`: the last segment. -/
def lastSeg (l : Str) : Str :=
  ((splitSep l).1 :: (splitSep l).2).getLastD []

/-- The `TYPE_MAP` dictionary of the script (lines 14-30). -/
def TYPE_MAP : List (Str × Str) :=
  [("i32".data, "int32_t".data), ("u32".data, "uint32_t".data),
   ("i64".data, "int64_t".data), ("u64".data, "uint64_t".data),
   ("f32".data, "float".data), ("f64".data, "double".data),
   ("bool".data, "bool".data), ("usize".data, "size_t".data),
   ("isize".data, "intptr_t".data), ("()".data, "void".data),
   ("c_char".data, "char".data), ("c_int".data, "int".data),
   ("c_void".data, "void".data), ("c_float".data, "float".data),
   ("c_double".data, "double".data)]

/-- Dictionary lookup `TYPE_MAP[rust_type]` (first matching key). -/
def lookupTM : List (Str × Str) → Str → Option Str
  | [], _ => none
  | (k, v) :: rest, s => if s = k then some v else lookupTM rest s

/-- Lines 43-49 of the script: the inner type handed to the recursive call by
the `*const` branch — strip the qualifier, reduce a fully qualified path that
does not itself start with `*`, and pre-map `c_char` to `char`. -/
def constInner (rust_type : Str) : Str :=
  let inner := strip (rust_type.drop 7)
  let inner1 :=
    if hasSub "::".data inner && !(begins "*".data inner) then lastSeg inner
    else inner
  if inner1 = "c_char".data then "char".data else inner1

/-- Fuelled transcription of `convert_rust_type_to_c` (lines 32-76).  The
recursion of the Python function decreases the length of its argument, so any
fuel larger than the length of the input computes the Python result; the
zero-fuel branch is never reached from `convert_rust_type_to_c`. -/
def convertF : Nat → Str → Str
  | 0, s => strip s
  | fuel + 1, s =>
    let rust_type := strip s
    match lookupTM TYPE_MAP rust_type with
    | some c => c
    | none =>
      if begins "*const ".data rust_type then
        let inner_c := convertF fuel (constInner rust_type)
        if inner_c = "char".data then "const char *".data
        else inner_c ++ " const *".data
      else if begins "*mut ".data rust_type then
        convertF fuel (strip (rust_type.drop 5)) ++ " *".data
      else if hasSub "Handle".data rust_type then "int32_t".data
      else if begins "fz_".data rust_type || begins "pdf_".data rust_type then rust_type
      else if hasSub "::".data rust_type then lastSeg rust_type
      else rust_type

/-- `convert_rust_type_to_c` (lines 32-76): convert a Rust type to C. -/
def convert_rust_type_to_c (s : Str) : Str := convertF (s.length + 1) s

example : convert_rust_type_to_c "i32".data = "int32_t".data := by decide
example : convert_rust_type_to_c "*const c_char".data = "const char *".data := by decide
example : convert_rust_type_to_c "*const *const c_char".data = "const char * const *".data := by
  decide
example : convert_rust_type_to_c "*mut DocHandle".data = "int32_t *".data := by decide
example : convert_rust_type_to_c "std::ffi::c_char".data = "c_char".data := by decide
example : convert_rust_type_to_c "*mut std::ffi::c_char".data = "c_char *".data := by decide
example : convert_rust_type_to_c "*const std::ffi::c_char".data = "const char *".data := by decide
example : convert_rust_type_to_c "()".data = "void".data := by decide
example : lastSeg "a:::b".data = ":b".data := by decide

/-! ### Length lemmas, establishing that the recursion of the converter
shrinks its argument -/

theorem dropWhile_length_le (p : Char → Bool) (l : Str) :
    (l.dropWhile p).length ≤ l.length := by
  induction l with
  | nil => simp
  | cons a l ih =>
    by_cases h : p a
    · simp only [List.dropWhile_cons, h, if_true, List.length_cons]
      omega
    · simp [List.dropWhile_cons, h]

theorem strip_length_le (l : Str) : (strip l).length ≤ l.length := by
  have h1 := dropWhile_length_le isWsChar l
  have h2 := dropWhile_length_le isWsChar (l.dropWhile isWsChar).reverse
  simp only [strip, List.length_reverse] at *
  omega

theorem begins_length_le : ∀ (pat l : Str), begins pat l = true → pat.length ≤ l.length := by
  intro pat
  induction pat with
  | nil => intro l _; simp
  | cons a p ih =>
    intro l h
    cases l with
    | nil => simp [begins] at h
    | cons b l' =>
      simp only [begins] at h
      by_cases hab : a = b
      · rw [if_pos hab] at h
        have := ih l' h
        simp only [List.length_cons]
        omega
      · rw [if_neg hab] at h
        exact absurd h (by simp)

theorem lastSeg_eq (l : Str) :
    lastSeg l = ((splitSep l).2).getLastD (splitSep l).1 := by
  rw [lastSeg, List.getLastD_cons]

theorem splitSep_length : ∀ l : Str,
    (splitSep l).1.length ≤ l.length ∧ (lastSeg l).length ≤ l.length := by
  intro l
  induction l using splitSep.induct with
  | case1 => simp [splitSep, lastSeg]
  | case2 c => simp [splitSep, lastSeg]
  | case3 c d rest h ih =>
    have hs : splitSep (c :: d :: rest) =
        ([], (splitSep rest).1 :: (splitSep rest).2) := by
      rw [splitSep, if_pos h]
    have hlast : lastSeg (c :: d :: rest) = lastSeg rest := by
      rw [lastSeg_eq, hs, lastSeg_eq, List.getLastD_cons]
    constructor
    · rw [hs]; simp
    · rw [hlast]
      have := ih.2
      simp only [List.length_cons]
      omega
  | case4 c d rest h ih =>
    have hs : splitSep (c :: d :: rest) =
        (c :: (splitSep (d :: rest)).1, (splitSep (d :: rest)).2) := by
      rw [splitSep, if_neg h]
    constructor
    · rw [hs]
      have := ih.1
      simp only [List.length_cons] at *
      omega
    · rw [lastSeg_eq, hs]
      have h1 := ih.2
      rw [lastSeg_eq] at h1
      cases hsp : (splitSep (d :: rest)).2 with
      | nil =>
        rw [hsp] at h1
        simp only [List.getLastD] at h1 ⊢
        simp only [List.length_cons] at *
        omega
      | cons x t =>
        rw [hsp] at h1
        rw [List.getLastD_cons] at h1 ⊢
        simp only [List.length_cons] at *
        omega

theorem lastSeg_length_le (l : Str) : (lastSeg l).length ≤ l.length :=
  (splitSep_length l).2

theorem constInner_length_lt (t : Str) (h1 : begins "*const ".data t = true) :
    (constInner t).length < t.length := by
  have h7 : 7 ≤ t.length := by
    have := begins_length_le "*const ".data t h1
    simpa using this
  have hd : (strip (t.drop 7)).length ≤ t.length - 7 := by
    have := strip_length_le (t.drop 7)
    rw [List.length_drop] at this
    exact this
  simp only [constInner]
  by_cases hc : (hasSub "::".data (strip (t.drop 7))
      && !begins "*".data (strip (t.drop 7))) = true
  · rw [if_pos hc]
    have hseg := lastSeg_length_le (strip (t.drop 7))
    by_cases hcc : lastSeg (strip (t.drop 7)) = "c_char".data
    · rw [if_pos hcc]
      have h6 : (lastSeg (strip (t.drop 7))).length = 6 := by rw [hcc]; rfl
      simp only [String.data, List.length_cons, List.length_nil]
      omega
    · rw [if_neg hcc]
      omega
  · rw [if_neg hc]
    by_cases hcc : strip (t.drop 7) = "c_char".data
    · rw [if_pos hcc]
      have h6 : (strip (t.drop 7)).length = 6 := by rw [hcc]; rfl
      simp only [String.data, List.length_cons, List.length_nil]
      omega
    · rw [if_neg hcc]
      omega

/-! ### Fuel irrelevance and the recurrence of `convert_rust_type_to_c` -/

theorem convertF_congr : ∀ (f g : Nat) (s : Str), s.length < f → s.length < g →
    convertF f s = convertF g s := by
  intro f
  induction f with
  | zero => intro g s hf _; omega
  | succ f ih =>
    intro g s hf hg
    cases g with
    | zero => omega
    | succ g =>
      simp only [convertF]
      cases hlk : lookupTM TYPE_MAP (strip s) with
      | some c => rfl
      | none =>
        by_cases h1 : begins "*const ".data (strip s) = true
        · simp only [h1, if_true]
          have hlt : (constInner (strip s)).length < s.length :=
            lt_of_lt_of_le (constInner_length_lt (strip s) h1) (strip_length_le s)
          rw [ih g (constInner (strip s)) (by omega) (by omega)]
        · simp only [h1, Bool.false_eq_true, if_false]
          by_cases h2 : begins "*mut ".data (strip s) = true
          · simp only [h2, if_true]
            have h5 : 5 ≤ (strip s).length := by
              have := begins_length_le "*mut ".data (strip s) h2
              simpa using this
            have hlt : (strip ((strip s).drop 5)).length < s.length := by
              have ha := strip_length_le ((strip s).drop 5)
              rw [List.length_drop] at ha
              have hb := strip_length_le s
              omega
            rw [ih g (strip ((strip s).drop 5)) (by omega) (by omega)]
          · simp only [h2, Bool.false_eq_true, if_false]

theorem convert_lookup_branch (s : Str) (v : Str)
    (hlk : lookupTM TYPE_MAP (strip s) = some v) :
    convert_rust_type_to_c s = v := by
  show convertF (s.length + 1) s = v
  simp only [convertF, hlk]

theorem convert_const_branch (s : Str)
    (hlk : lookupTM TYPE_MAP (strip s) = none)
    (h1 : begins "*const ".data (strip s) = true) :
    convert_rust_type_to_c s =
      if convert_rust_type_to_c (constInner (strip s)) = "char".data then
        "const char *".data
      else convert_rust_type_to_c (constInner (strip s)) ++ " const *".data := by
  show convertF (s.length + 1) s = _
  simp only [convertF, hlk, h1, if_true]
  have hlt : (constInner (strip s)).length < s.length :=
    lt_of_lt_of_le (constInner_length_lt (strip s) h1) (strip_length_le s)
  rw [convertF_congr s.length ((constInner (strip s)).length + 1)
    (constInner (strip s)) (by omega) (by omega)]
  rfl

theorem convert_mut_branch (s : Str)
    (hlk : lookupTM TYPE_MAP (strip s) = none)
    (h1 : begins "*const ".data (strip s) = false)
    (h2 : begins "*mut ".data (strip s) = true) :
    convert_rust_type_to_c s =
      convert_rust_type_to_c (strip ((strip s).drop 5)) ++ " *".data := by
  show convertF (s.length + 1) s = _
  simp only [convertF, hlk, h1, h2, if_true, Bool.false_eq_true, if_false]
  have h5 : 5 ≤ (strip s).length := by
    have := begins_length_le "*mut ".data (strip s) h2
    simpa using this
  have hlt : (strip ((strip s).drop 5)).length < s.length := by
    have ha := strip_length_le ((strip s).drop 5)
    rw [List.length_drop] at ha
    have hb := strip_length_le s
    omega
  rw [convertF_congr s.length ((strip ((strip s).drop 5)).length + 1)
    (strip ((strip s).drop 5)) (by omega) (by omega)]
  rfl

theorem convert_handle_branch (s : Str)
    (hlk : lookupTM TYPE_MAP (strip s) = none)
    (h1 : begins "*const ".data (strip s) = false)
    (h2 : begins "*mut ".data (strip s) = false)
    (h3 : hasSub "Handle".data (strip s) = true) :
    convert_rust_type_to_c s = "int32_t".data := by
  show convertF (s.length + 1) s = _
  simp only [convertF, hlk, h1, h2, h3, Bool.false_eq_true, if_false, if_true]

theorem convert_struct_branch (s : Str)
    (hlk : lookupTM TYPE_MAP (strip s) = none)
    (h1 : begins "*const ".data (strip s) = false)
    (h2 : begins "*mut ".data (strip s) = false)
    (h3 : hasSub "Handle".data (strip s) = false)
    (h4 : (begins "fz_".data (strip s) || begins "pdf_".data (strip s)) = true) :
    convert_rust_type_to_c s = strip s := by
  show convertF (s.length + 1) s = _
  simp only [convertF, hlk, h1, h2, h3, h4, Bool.false_eq_true, if_false, if_true]

theorem convert_seg_branch (s : Str)
    (hlk : lookupTM TYPE_MAP (strip s) = none)
    (h1 : begins "*const ".data (strip s) = false)
    (h2 : begins "*mut ".data (strip s) = false)
    (h3 : hasSub "Handle".data (strip s) = false)
    (h4 : (begins "fz_".data (strip s) || begins "pdf_".data (strip s)) = false)
    (h5 : hasSub "::".data (strip s) = true) :
    convert_rust_type_to_c s = lastSeg (strip s) := by
  show convertF (s.length + 1) s = _
  simp only [convertF, hlk, h1, h2, h3, h4, h5, Bool.false_eq_true, if_false, if_true]

theorem convert_default_branch (s : Str)
    (hlk : lookupTM TYPE_MAP (strip s) = none)
    (h1 : begins "*const ".data (strip s) = false)
    (h2 : begins "*mut ".data (strip s) = false)
    (h3 : hasSub "Handle".data (strip s) = false)
    (h4 : (begins "fz_".data (strip s) || begins "pdf_".data (strip s)) = false)
    (h5 : hasSub "::".data (strip s) = false) :
    convert_rust_type_to_c s = strip s := by
  show convertF (s.length + 1) s = _
  simp only [convertF, hlk, h1, h2, h3, h4, h5, Bool.false_eq_true, if_false]

/-! ### The signature parser (`parse_rust_ffi_function`, lines 115-177) -/

/-- The regex word class `\w` (ASCII inputs). -/
def isWordChar (c : Char) : Bool := c.isAlphanum || c = '_'

/-- `re.search(r'fn\s+(\w+)', sig)` (line 118): scan left to right for the
literal `fn` followed by at least one whitespace character, capturing the
following non-empty run of word characters. -/
def findFnName : Str → Option Str
  | [] => none
  | c :: rest =>
    match c, rest with
    | 'f', 'n' :: rest2 =>
      if rest2.takeWhile isWsChar ≠ [] ∧
          (rest2.dropWhile isWsChar).takeWhile isWordChar ≠ [] then
        some ((rest2.dropWhile isWsChar).takeWhile isWordChar)
      else findFnName rest
    | _, _ => findFnName rest

/-- After the closing parenthesis, the parameter regex of line 125 requires
`\s*` followed by `->`, `\x7b` or `;`. -/
def afterCloseOk (l : Str) : Bool :=
  begins "->".data (l.dropWhile isWsChar) || begins ['\x7b'] (l.dropWhile isWsChar)
    || begins [';'] (l.dropWhile isWsChar)

/-- The lazy group `(.*?)` of the parameter regex: the shortest run of
characters followed by `)` whose right context satisfies `afterCloseOk`. -/
def findCloseLazy : Str → Option Str
  | [] => none
  | c :: rest =>
    if c = ')' ∧ afterCloseOk rest = true then some []
    else (findCloseLazy rest).map (fun content => c :: content)

/-- `re.search(r'\((.*?)\)\s*(?:->|\x7b|;)', sig, re.DOTALL)` (line 125): the
captured parameter text at the first position where the pattern matches. -/
def findParams : Str → Option Str
  | [] => none
  | c :: rest =>
    if c = '(' then
      match findCloseLazy rest with
      | some content => some content
      | none => findParams rest
    else findParams rest

/-- The character class `[^\x7b;]` of the return-type regex. -/
def notBraceSemi (c : Char) : Bool := !(c = '\x7b' || c = ';')

/-- `re.search(r'->\s*([^\x7b;]+)', sig)` (line 132): the capture at the first
position where the pattern matches; when the greedy class after maximal `\s*`
would be empty, the regex backtracks one whitespace character into the
class. -/
def findRet : Str → Option Str
  | [] => none
  | c :: rest =>
    match c, rest with
    | '-', '>' :: rest2 =>
      if (rest2.dropWhile isWsChar).takeWhile notBraceSemi ≠ [] then
        some ((rest2.dropWhile isWsChar).takeWhile notBraceSemi)
      else if rest2.takeWhile isWsChar ≠ [] then
        some [(rest2.takeWhile isWsChar).getLastD ' ']
      else findRet rest
    | _, _ => findRet rest

/-- Lines 139-151: split the parameter text on commas at bracket depth zero,
tracking `<`, `(`, `[` against `>`, `)`, `]` jointly; each flushed chunk is
stripped. -/
def splitParamsGo : Str → Int → Str → List Str
  | [], _, _ => []
  | c :: rest, depth, current =>
    if c = '<' ∨ c = '(' ∨ c = '[' then splitParamsGo rest (depth + 1) (current ++ [c])
    else if c = '>' ∨ c = ')' ∨ c = ']' then splitParamsGo rest (depth - 1) (current ++ [c])
    else if c = ',' ∧ depth = 0 then strip current :: splitParamsGo rest depth []
    else splitParamsGo rest depth (current ++ [c])

/-- The loop of line 142 runs over `params_str + ','`. -/
def splitParams (params_str : Str) : List Str := splitParamsGo (params_str ++ [',']) 0 []

/-- Lines 153-167: render one parameter as `<C type> <name>`: split on the
first `:` into name and type and convert the type; an empty chunk or a chunk
with no `:` is dropped. -/
def renderParam (param : Str) : Option Str :=
  if param = [] then none
  else if param.contains ':' then
    some (convert_rust_type_to_c (strip ((param.dropWhile (fun c => c != ':')).drop 1))
      ++ [' '] ++ strip (param.takeWhile (fun c => c != ':')))
  else none

/-- `', '.join`. -/
def joinCommaSpace : List Str → Str
  | [] => []
  | [x] => x
  | x :: y :: xs => x ++ ", ".data ++ joinCommaSpace (y :: xs)

/-- The function-descriptor dictionary built on lines 172-177. -/
structure FuncInfo where
  name : Str
  params : Str
  ret : Str
  declaration : Str
deriving DecidableEq

/-- `parse_rust_ffi_function` (lines 115-177). -/
def parse_rust_ffi_function (rust_sig : Str) : Option FuncInfo :=
  match findFnName rust_sig with
  | none => none
  | some fn_name =>
    match findParams rust_sig with
    | none => none
    | some raw =>
      let params_str := strip raw
      let ret_type :=
        match findRet rust_sig with
        | some g => strip g
        | none => "()".data
      let c_params :=
        if params_str = [] then [] else (splitParams params_str).filterMap renderParam
      let c_params_str := if c_params = [] then "void".data else joinCommaSpace c_params
      let c_ret_type := convert_rust_type_to_c ret_type
      some ⟨fn_name, c_params_str, c_ret_type,
        c_ret_type ++ [' '] ++ fn_name ++ ['('] ++ c_params_str ++ [')', ';']⟩

example :
    parse_rust_ffi_function
        "pub extern \"C\" fn open_doc(path: *const c_char) -> i32".data =
      some ⟨"open_doc".data, "const char * path".data, "int32_t".data,
        "int32_t open_doc(const char * path);".data⟩ := by decide

example : parse_rust_ffi_function "pub extern \"C\" fn reset()".data = none := by decide

example :
    parse_rust_ffi_function "pub extern \"C\" fn reset() \x7b".data =
      some ⟨"reset".data, "void".data, "void".data, "void reset(void);".data⟩ := by decide

/-! ### The signature extractor (`extract_function_signature`, lines 78-113) -/

/-- `line.count(c)`. -/
def countChar (c : Char) (l : Str) : Nat := (l.filter (fun x => x == c)).length

/-- The scanning loop of `extract_function_signature`: `rest` holds the lines
from the current index on, `idx` is the current absolute index, and
`sig_lines`, `paren_depth`, `found_fn` are the loop state of lines 80-83. -/
def extractGo : List Str → Nat → List Str → Int → Bool → List Str × Nat
  | [], idx, sig_lines, _, _ => (sig_lines, idx)
  | l :: rest, idx, sig_lines, paren_depth, found_fn =>
    let line := strip l
    if line = [] ∨ begins "//".data line = true then
      extractGo rest (idx + 1) sig_lines paren_depth found_fn
    else
      let found2 := found_fn
        || (hasSub "pub".data line && hasSub "extern".data line && hasSub "fn ".data line)
      if found2 = true then
        let sig2 := sig_lines ++ [line]
        let depth2 := paren_depth + (countChar '(' line : Int) - (countChar ')' line : Int)
        if depth2 = 0 ∧ (hasSub ['\x7b'] line = true ∨ line.getLast? = some ';') then
          (sig2, idx)
        else if depth2 = 0 ∧ hasSub "->".data line = false then (sig2, idx)
        else extractGo rest (idx + 1) sig2 depth2 found2
      else extractGo rest (idx + 1) sig_lines paren_depth found2

/-- `' '.join`. -/
def joinSpace : List Str → Str
  | [] => []
  | [x] => x
  | x :: y :: xs => x ++ [' '] ++ joinSpace (y :: xs)

/-- `extract_function_signature` (lines 78-113): the joined signature lines
together with the loop's final index. -/
def extract_function_signature (lines : List Str) (start_idx : Nat) : Str × Nat :=
  let r := extractGo (lines.drop start_idx) start_idx [] 0 false
  (joinSpace r.1, r.2)

example :
    extract_function_signature ["pub extern \"C\" fn reset()".data, "\x7b".data] 0 =
      ("pub extern \"C\" fn reset()".data, 0) := by decide

theorem joinSpace_getLast_suffix : ∀ (sig : List Str) (x : Str),
    sig.getLast? = some x → x <:+ joinSpace sig := by
  intro sig
  induction sig using joinSpace.induct with
  | case1 => intro x hx; simp at hx
  | case2 y =>
    intro x hx
    rw [List.getLast?_singleton] at hx
    cases hx
    exact List.suffix_refl _
  | case3 y z t ih =>
    intro x hx
    rw [List.getLast?_cons_cons] at hx
    exact (ih x hx).trans (List.suffix_append _ _)

theorem extractGo_spec : ∀ (rest : List Str) (idx : Nat) (sig : List Str) (d : Int) (f : Bool),
    (extractGo rest idx sig d f).2 = idx + rest.length ∨
    (∃ k l, k < rest.length ∧ rest[k]? = some l ∧
      (extractGo rest idx sig d f).2 = idx + k ∧
      (extractGo rest idx sig d f).1.getLast? = some (strip l)) := by
  intro rest
  induction rest with
  | nil => intro idx sig d f; left; simp [extractGo]
  | cons l rest ih =>
    intro idx sig d f
    simp only [extractGo]
    split_ifs with h1 h2 h3 h4
    · rcases ih (idx + 1) sig d f with h | ⟨k, l', hk, hget, hidx, hlast⟩
      · left
        rw [h]
        simp only [List.length_cons]
        omega
      · right
        exact ⟨k + 1, l', by simpa using hk, by simpa using hget, by rw [hidx]; omega, hlast⟩
    · right
      exact ⟨0, l, by simp, by simp, by omega, by simp [List.getLast?_concat]⟩
    · right
      exact ⟨0, l, by simp, by simp, by omega, by simp [List.getLast?_concat]⟩
    · rcases ih (idx + 1) (sig ++ [strip l])
          (d + (countChar '(' (strip l) : Int) - (countChar ')' (strip l) : Int))
          (f || (hasSub "pub".data (strip l) && hasSub "extern".data (strip l)
            && hasSub "fn ".data (strip l))) with h | ⟨k, l', hk, hget, hidx, hlast⟩
      · left
        rw [h]
        simp only [List.length_cons]
        omega
      · right
        exact ⟨k + 1, l', by simpa using hk, by simpa using hget, by rw [hidx]; omega, hlast⟩
    · rcases ih (idx + 1) sig d
          (f || (hasSub "pub".data (strip l) && hasSub "extern".data (strip l)
            && hasSub "fn ".data (strip l))) with h | ⟨k, l', hk, hget, hidx, hlast⟩
      · left
        rw [h]
        simp only [List.length_cons]
        omega
      · right
        exact ⟨k + 1, l', by simpa using hk, by simpa using hget, by rw [hidx]; omega, hlast⟩

/-! ### Generic helper lemmas -/

theorem lookupTM_mem : ∀ (M : List (Str × Str)) (s v : Str),
    lookupTM M s = some v → s ∈ M.map Prod.fst := by
  intro M
  induction M with
  | nil => intro s v h; simp [lookupTM] at h
  | cons p rest ih =>
    intro s v h
    obtain ⟨k, w⟩ := p
    rw [lookupTM] at h
    by_cases hk : s = k
    · simp [hk]
    · rw [if_neg hk] at h
      simp only [List.map_cons, List.mem_cons]
      exact Or.inr (ih s v h)

theorem lookupTM_none_of_star (s : Str) (h : '*' ∈ s) :
    lookupTM TYPE_MAP s = none := by
  cases hv : lookupTM TYPE_MAP s with
  | none => rfl
  | some v =>
    have hmem := lookupTM_mem _ _ _ hv
    have hkeys : ∀ k ∈ TYPE_MAP.map Prod.fst, '*' ∉ k := by decide
    exact absurd h (hkeys _ hmem)

theorem dropWhile_eq_self (p : Char → Bool) (l : Str)
    (h : ∀ a, l.head? = some a → p a = false) : l.dropWhile p = l := by
  cases l with
  | nil => rfl
  | cons a t =>
    rw [List.dropWhile_cons, if_neg]
    rw [h a rfl]
    simp

theorem strip_eq_self_of_edges (l : Str)
    (h1 : ∀ a, l.head? = some a → isWsChar a = false)
    (h2 : ∀ a, l.getLast? = some a → isWsChar a = false) : strip l = l := by
  have e1 : l.dropWhile isWsChar = l := dropWhile_eq_self _ _ h1
  rw [strip, e1]
  have e2 : l.reverse.dropWhile isWsChar = l.reverse := by
    apply dropWhile_eq_self
    intro a ha
    rw [List.head?_reverse] at ha
    exact h2 a ha
  rw [e2, List.reverse_reverse]

theorem begins_append_self : ∀ (pat t : Str), begins pat (pat ++ t) = true := by
  intro pat
  induction pat with
  | nil => intro t; rfl
  | cons a p ih =>
    intro t
    rw [List.cons_append, begins, if_pos rfl]
    exact ih t

/-! ### Claim C1 — the `open_doc` scenario -/

/-- C1: for the input signature `pub extern "C" fn open_doc(path: *const c_char) -> i32`
the parser yields the descriptor with name `open_doc`, rendered parameter list
`const char * path` (one parameter `path` of converted type `const char *`),
return type `int32_t`, and declaration
`int32_t open_doc(const char * path);`. -/
theorem c1_open_doc_scenario :
    parse_rust_ffi_function
        "pub extern \"C\" fn open_doc(path: *const c_char) -> i32".data =
      some ⟨"open_doc".data, "const char * path".data, "int32_t".data,
        "int32_t open_doc(const char * path);".data⟩ := by decide

/-! ### Claim C2 — the arrow-less empty-parameter signature is dropped -/

/-- C2: the extractor emits the bare signature `pub extern "C" fn reset()`
when the body brace sits on the following line (the arrow-less termination
rule of lines 107-109), but the parser returns no descriptor for that string
because the parameter regex of line 125 demands `->`, `\x7b` or `;` after the
closing parenthesis — the signature is silently dropped instead of rendering
`void reset(void);`; the declaration is produced only when the terminator sits
on the signature line itself. -/
theorem c2_reset_dropped :
    (extract_function_signature ["pub extern \"C\" fn reset()".data, "\x7b".data] 0).1 =
      "pub extern \"C\" fn reset()".data ∧
    parse_rust_ffi_function "pub extern \"C\" fn reset()".data = none ∧
    parse_rust_ffi_function "pub extern \"C\" fn reset() \x7b".data =
      some ⟨"reset".data, "void".data, "void".data, "void reset(void);".data⟩ := by decide

/-! ### Claim C7 — the index returned by the extractor -/

/-- C7 counterexample: for a signature completed on line 0 the extractor
returns index 0 — the index of the line just consumed into the returned
signature text — whereas the first unconsumed line has index 1. -/
theorem c7_first_unconsumed_cex :
    extract_function_signature
        ["pub extern \"C\" fn go() \x7b".data, "next".data] 0 =
      ("pub extern \"C\" fn go() \x7b".data, 0) ∧ (0 : Nat) ≠ 1 := by decide

/-- C7 amended: the extractor returns the joined signature text together with
either the total number of lines (input exhausted) or the index of the LAST
consumed line — the line whose stripped text is the final chunk of the
returned signature — and the caller advances past it by adding one
(lines 200-202), so the index returned is not the first unconsumed line. -/
theorem c7_extract_last_consumed (lines : List Str) (start_idx : Nat)
    (h : start_idx ≤ lines.length) :
    (extract_function_signature lines start_idx).2 = lines.length ∨
    (∃ l, lines[(extract_function_signature lines start_idx).2]? = some l ∧
      strip l <:+ (extract_function_signature lines start_idx).1) := by
  unfold extract_function_signature
  rcases extractGo_spec (lines.drop start_idx) start_idx [] 0 false with
    h1 | ⟨k, l, hk, hget, h2, h3⟩
  · left
    rw [h1, List.length_drop]
    omega
  · right
    refine ⟨l, ?_, ?_⟩
    · simp only [h2]
      rw [← List.getElem?_drop]
      exact hget
    · exact joinSpace_getLast_suffix _ _ h3

/-- Witness for `c7_extract_last_consumed` at a concrete input. -/
theorem c7_extract_last_consumed_witness :
    (extract_function_signature
        ["pub extern \"C\" fn two()".data, "-> i32 \x7b".data] 0).2 =
      (["pub extern \"C\" fn two()".data, "-> i32 \x7b".data] : List Str).length ∨
    (∃ l, (["pub extern \"C\" fn two()".data, "-> i32 \x7b".data] :
        List Str)[(extract_function_signature
          ["pub extern \"C\" fn two()".data, "-> i32 \x7b".data] 0).2]? = some l ∧
      strip l <:+ (extract_function_signature
        ["pub extern \"C\" fn two()".data, "-> i32 \x7b".data] 0).1) :=
  c7_extract_last_consumed
    ["pub extern \"C\" fn two()".data, "-> i32 \x7b".data] 0 (by decide)

/-! ### Claim C3 — qualified-path reduction -/

/-- C3 counterexample: the qualified path `std::ffi::c_char` converts to its
bare last segment `c_char` and not to `char`: the path rule returns the last
segment without applying the primitive table to it. -/
theorem c3_qualified_path_cex :
    convert_rust_type_to_c "std::ffi::c_char".data = "c_char".data ∧
    "c_char".data ≠ "char".data := by decide

/-- C3 amended: qualified-path reduction is the second-to-last rule, not the
first: only when the stripped input is no primitive-table key, is no
`*const `/`*mut ` pointer, contains no `Handle` token and has no `fz_`/`pdf_`
prefix does a qualified path convert — to its last segment, unconverted.
Inside a `*const` pointer the inner path is reduced before the recursive call
(`*const std::ffi::c_char` still gives `const char *`), while the `*mut`
branch recurses without path reduction (`*mut std::ffi::c_char` gives
`c_char *`). -/
theorem c3_qualified_path_amended :
    (∀ s : Str, lookupTM TYPE_MAP (strip s) = none →
      begins "*const ".data (strip s) = false →
      begins "*mut ".data (strip s) = false →
      hasSub "Handle".data (strip s) = false →
      (begins "fz_".data (strip s) || begins "pdf_".data (strip s)) = false →
      hasSub "::".data (strip s) = true →
      convert_rust_type_to_c s = lastSeg (strip s)) ∧
    convert_rust_type_to_c "std::ffi::c_char".data = "c_char".data ∧
    convert_rust_type_to_c "*const std::ffi::c_char".data = "const char *".data ∧
    convert_rust_type_to_c "*mut std::ffi::c_char".data = "c_char *".data := by
  refine ⟨?_, by decide, by decide, by decide⟩
  intro s h0 h1 h2 h3 h4 h5
  exact convert_seg_branch s h0 h1 h2 h3 h4 h5

/-- Witness for the universally quantified clause of
`c3_qualified_path_amended` at a concrete input. -/
theorem c3_qualified_path_amended_witness :
    convert_rust_type_to_c "mymod::MyType".data = lastSeg (strip "mymod::MyType".data) :=
  c3_qualified_path_amended.1 "mymod::MyType".data (by decide) (by decide) (by decide)
    (by decide) (by decide) (by decide)

/-! ### Claim C4 — handle erasure -/

/-- C4 counterexample: `*mut DocHandle` contains the token `Handle` yet
converts to the pointer type `int32_t *`, because the pointer branches run
before the handle rule — a handle behind a pointer qualifier is emitted as a
pointer type. -/
theorem c4_handle_cex :
    hasSub "Handle".data "*mut DocHandle".data = true ∧
    convert_rust_type_to_c "*mut DocHandle".data = "int32_t *".data ∧
    "int32_t *".data ≠ "int32_t".data := by decide

/-- C4 amended: a type whose stripped text contains `Handle` and does not
begin with a pointer qualifier `*const `/`*mut ` converts to the fixed
`int32_t` (no primitive-table key contains `Handle`, so the table cannot
intervene); under a pointer qualifier the erasure applies to the inner type
instead, so a pointer-to-handle is emitted as a pointer such as `int32_t *`. -/
theorem c4_handle_amended (s : Str)
    (h3 : hasSub "Handle".data (strip s) = true)
    (h1 : begins "*const ".data (strip s) = false)
    (h2 : begins "*mut ".data (strip s) = false) :
    convert_rust_type_to_c s = "int32_t".data := by
  have hlk : lookupTM TYPE_MAP (strip s) = none := by
    cases hv : lookupTM TYPE_MAP (strip s) with
    | none => rfl
    | some v =>
      have hmem := lookupTM_mem _ _ _ hv
      have hkeys : ∀ k ∈ TYPE_MAP.map Prod.fst, hasSub "Handle".data k = false := by decide
      have hfalse := hkeys _ hmem
      rw [h3] at hfalse
      exact Bool.noConfusion hfalse
  exact convert_handle_branch s hlk h1 h2 h3

/-- Witness for `c4_handle_amended` at a concrete input. -/
theorem c4_handle_amended_witness :
    convert_rust_type_to_c "DocHandle".data = "int32_t".data :=
  c4_handle_amended "DocHandle".data (by decide) (by decide) (by decide)

/-! ### Claim C5 — nested pointer resolution -/

/-- `n` nested `*const ` qualifiers around `c_char`. -/
def nestConst : Nat → Str
  | 0 => "c_char".data
  | n + 1 => "*const ".data ++ nestConst n

/-- The C type the converter produces for `nestConst n`: the string idiom at
the innermost level, a plain const-pointer suffix at every outer level. -/
def expectedConst : Nat → Str
  | 0 => "char".data
  | 1 => "const char *".data
  | n + 2 => expectedConst (n + 1) ++ " const *".data

theorem nestConst_cons (n : Nat) :
    nestConst (n + 1) = '*' :: ("const ".data ++ nestConst n) := rfl

theorem nestConst_getLast (n : Nat) : (nestConst n).getLast? = some 'r' := by
  induction n with
  | zero => decide
  | succ n ih =>
    have hne : nestConst n ≠ [] := by
      intro h
      rw [h] at ih
      simp at ih
    rw [nestConst, List.getLast?_append_of_ne_nil _ hne]
    exact ih

theorem strip_nest (n : Nat) : strip (nestConst n) = nestConst n := by
  apply strip_eq_self_of_edges
  · intro a ha
    cases n with
    | zero =>
      cases ha
      rfl
    | succ n =>
      rw [nestConst_cons] at ha
      cases ha
      rfl
  · intro a ha
    rw [nestConst_getLast n] at ha
    cases ha
    rfl

theorem nestConst_length (n : Nat) : (nestConst n).length = 7 * n + 6 := by
  induction n with
  | zero => rfl
  | succ n ih =>
    rw [nestConst, List.length_append, ih]
    simp only [String.data, List.length_cons, List.length_nil]
    omega

theorem expectedConst_length_ge (n : Nat) : 12 ≤ (expectedConst (n + 1)).length := by
  induction n with
  | zero => decide
  | succ n ih =>
    rw [expectedConst, List.length_append]
    omega

theorem constInner_nest (n : Nat) : constInner (nestConst (n + 2)) = nestConst (n + 1) := by
  have hdrop : (nestConst (n + 2)).drop 7 = nestConst (n + 1) := by
    rw [nestConst, show (7 : Nat) = ("*const ".data).length from rfl, List.drop_left]
  have hb : begins "*".data (nestConst (n + 1)) = true := by
    rw [nestConst_cons]
    rfl
  have hne : nestConst (n + 1) ≠ "c_char".data := by
    intro h
    have := congrArg List.length h
    rw [nestConst_length] at this
    simp only [String.data, List.length_cons, List.length_nil] at this
    omega
  simp only [constInner, hdrop, strip_nest, hb, Bool.not_true, Bool.and_false,
    Bool.false_eq_true, if_false, if_neg hne]

theorem convert_nestConst : ∀ n : Nat,
    convert_rust_type_to_c (nestConst n) = expectedConst n := by
  intro n
  induction n with
  | zero => decide
  | succ n ih =>
    cases n with
    | zero => decide
    | succ m =>
      have hstrip := strip_nest (m + 2)
      have hlk : lookupTM TYPE_MAP (strip (nestConst (m + 2))) = none := by
        rw [hstrip]
        apply lookupTM_none_of_star
        rw [nestConst_cons]
        exact List.mem_cons_self _ _
      have hbeg : begins "*const ".data (strip (nestConst (m + 2))) = true := by
        rw [hstrip, nestConst]
        exact begins_append_self _ _
      have hne : expectedConst (m + 1) ≠ "char".data := by
        intro h
        have := congrArg List.length h
        have h12 := expectedConst_length_ge m
        rw [h] at h12
        simp only [String.data, List.length_cons, List.length_nil] at h12
        omega
      rw [convert_const_branch _ hlk hbeg, hstrip, constInner_nest m, ih, if_neg hne]
      rfl

/-- C5: pointer nesting is resolved recursively to arbitrary depth and the
string-pointer idiom collapse applies only at the innermost level:
`nestConst n` (the type with `n` `*const ` qualifiers around `c_char`)
converts to `expectedConst n` for every `n`, and in particular
`*const *const c_char` converts to the double-pointer form
`const char * const *`, not to the string idiom `const char *`. -/
theorem c5_nested_pointers :
    (∀ n : Nat, convert_rust_type_to_c (nestConst n) = expectedConst n) ∧
    convert_rust_type_to_c "*const *const c_char".data = "const char * const *".data ∧
    "const char * const *".data ≠ "const char *".data :=
  ⟨convert_nestConst, by decide, by decide⟩

/-! ### Claim C6 — idempotence of type conversion -/

/-- Well-formed FFI type expressions: a non-empty base name of word
characters, the unit type `()`, or nested `*const `/`*mut ` pointers over
these. -/
inductive WFType : Str → Prop
  | base (s : Str) : s ≠ [] → (∀ c ∈ s, isWordChar c = true) → WFType s
  | unit : WFType "()".data
  | constPtr (s : Str) : WFType s → WFType ("*const ".data ++ s)
  | mutPtr (s : Str) : WFType s → WFType ("*mut ".data ++ s)

/-- Benign edges: the first character is no whitespace and no `*`, the last
character is no whitespace. -/
def edgeOk (c : Str) : Bool :=
  (match c.head? with
   | some a => !isWsChar a && a != '*'
   | none => true) &&
  (match c.getLast? with
   | some a => !isWsChar a
   | none => true)

/-- The invariant satisfied by converter outputs on well-formed types: they
are fixed points of the converter, non-empty, with benign edges, and contain
neither the `Handle` token nor a colon. -/
def goodOut (c : Str) : Prop :=
  convert_rust_type_to_c c = c ∧ c ≠ [] ∧ edgeOk c = true ∧
  hasSub "Handle".data c = false ∧ ':' ∉ c

instance (c : Str) : Decidable (goodOut c) := by
  unfold goodOut
  infer_instance

theorem getLast?_mem : ∀ {l : Str} {a : Char}, l.getLast? = some a → a ∈ l := by
  intro l
  induction l with
  | nil => intro a h; cases h
  | cons x t ih =>
    intro a h
    cases t with
    | nil =>
      rw [List.getLast?_singleton] at h
      cases h
      exact List.mem_cons_self _ _
    | cons y u =>
      rw [List.getLast?_cons_cons] at h
      exact List.mem_cons_of_mem _ (ih h)

theorem isWordChar_not_ws {a : Char} (h : isWordChar a = true) : isWsChar a = false := by
  cases hw : isWsChar a with
  | false => rfl
  | true =>
    exfalso
    simp only [isWsChar, Bool.or_eq_true, decide_eq_true_eq] at hw
    rcases hw with ((((rfl | rfl) | rfl) | rfl) | rfl) | rfl <;> exact absurd h (by decide)

theorem isWordChar_not_star {a : Char} (h : isWordChar a = true) : a ≠ '*' := by
  intro hx
  subst hx
  exact absurd h (by decide)

theorem word_no_colon {s : Str} (hword : ∀ c ∈ s, isWordChar c = true) : ':' ∉ s := by
  intro hmem
  exact absurd (hword ':' hmem) (by decide)

theorem colon_mem_of_hasSub : ∀ l : Str, hasSub "::".data l = true → ':' ∈ l := by
  intro l
  induction l with
  | nil => intro h; exact absurd h (by decide)
  | cons x t ih =>
    intro h
    rw [hasSub] at h
    cases hq : begins "::".data (x :: t) with
    | true =>
      have hx : x = ':' := by
        rw [show ("::".data : Str) = ':' :: ":".data from rfl, begins] at hq
        by_cases hp : ':' = x
        · exact hp.symm
        · rw [if_neg hp] at hq
          exact absurd hq (by simp)
      rw [hx]
      exact List.mem_cons_self _ _
    | false =>
      rw [hq] at h
      simp only [Bool.false_or] at h
      exact List.mem_cons_of_mem _ (ih h)

theorem begins_false_of_head (a : Char) (pat l : Str) (x : Char)
    (hx : l.head? = some x) (hne : a ≠ x) : begins (a :: pat) l = false := by
  cases l with
  | nil => cases hx
  | cons y t =>
    cases hx
    rw [begins, if_neg hne]

theorem begins_of_begins_append : ∀ (pat a b : Str), ' ' ∉ pat →
    begins pat (a ++ ' ' :: b) = true → begins pat a = true := by
  intro pat
  induction pat with
  | nil => intro a b _ _; rfl
  | cons p ps ih =>
    intro a b hsp h
    cases a with
    | nil =>
      simp only [List.nil_append] at h
      rw [begins] at h
      by_cases hp : p = ' '
      · subst hp
        exact absurd (List.mem_cons_self _ _) hsp
      · rw [if_neg hp] at h
        exact absurd h (by simp)
    | cons x a' =>
      rw [List.cons_append] at h
      rw [begins] at h ⊢
      by_cases hp : p = x
      · rw [if_pos hp] at h ⊢
        exact ih a' b (fun hm => hsp (List.mem_cons_of_mem _ hm)) h
      · rw [if_neg hp] at h
        exact absurd h (by simp)

theorem hasSub_append_space_false (pat : Str) : ∀ (a b : Str), ' ' ∉ pat →
    hasSub pat a = false → hasSub pat (' ' :: b) = false →
    hasSub pat (a ++ ' ' :: b) = false := by
  intro a
  induction a with
  | nil =>
    intro b _ _ hb
    simpa using hb
  | cons x a' ih =>
    intro b hsp ha hb
    rw [List.cons_append, hasSub]
    rw [hasSub, Bool.or_eq_false_iff] at ha
    rw [Bool.or_eq_false_iff]
    refine ⟨?_, ih b hsp ha.2 hb⟩
    cases hq : begins pat (x :: (a' ++ ' ' :: b)) with
    | false => rfl
    | true =>
      have := begins_of_begins_append pat (x :: a') b hsp (by rw [List.cons_append]; exact hq)
      rw [ha.1] at this
      exact this.symm

theorem lookupTM_mem_snd : ∀ (M : List (Str × Str)) (s v : Str),
    lookupTM M s = some v → v ∈ M.map Prod.snd := by
  intro M
  induction M with
  | nil => intro s v h; simp [lookupTM] at h
  | cons p rest ih =>
    intro s v h
    obtain ⟨k, w⟩ := p
    rw [lookupTM] at h
    by_cases hk : s = k
    · rw [if_pos hk] at h
      cases h
      simp
    · rw [if_neg hk] at h
      simp only [List.map_cons, List.mem_cons]
      exact Or.inr (ih s v h)

theorem head?_append_left {l : Str} (t : Str) (h : l ≠ []) :
    (l ++ t).head? = l.head? := by
  cases l with
  | nil => exact absurd rfl h
  | cons x xs => rfl

theorem edgeOk_intro (c : Str)
    (h1 : ∀ a, c.head? = some a → isWsChar a = false ∧ a ≠ '*')
    (h2 : ∀ a, c.getLast? = some a → isWsChar a = false) : edgeOk c = true := by
  unfold edgeOk
  rw [Bool.and_eq_true]
  constructor
  · cases hh : c.head? with
    | none => rfl
    | some a =>
      obtain ⟨hw, hs⟩ := h1 a hh
      simp [hw, hs]
  · cases hh : c.getLast? with
    | none => rfl
    | some a => simp [h2 a hh]

theorem edgeOk_head {c : Str} {a : Char} (h : edgeOk c = true) (ha : c.head? = some a) :
    isWsChar a = false ∧ a ≠ '*' := by
  unfold edgeOk at h
  rw [ha, Bool.and_eq_true] at h
  have h1 := h.1
  simp only [Bool.and_eq_true, Bool.not_eq_true', bne_iff_ne] at h1
  exact h1

theorem WFType_ne_nil {s : Str} (h : WFType s) : s ≠ [] := by
  induction h with
  | base s hne hw => exact hne
  | unit => decide
  | constPtr s hs ih =>
    intro hx
    exact absurd (List.append_eq_nil.mp hx).1 (by decide)
  | mutPtr s hs ih =>
    intro hx
    exact absurd (List.append_eq_nil.mp hx).1 (by decide)

theorem WFType_edges {s : Str} (h : WFType s) :
    (∀ a, s.head? = some a → isWsChar a = false) ∧
    (∀ a, s.getLast? = some a → isWsChar a = false) := by
  induction h with
  | base s hne hw =>
    exact ⟨fun a ha => isWordChar_not_ws (hw a (List.mem_of_mem_head? ha)),
      fun a ha => isWordChar_not_ws (hw a (getLast?_mem ha))⟩
  | unit =>
    constructor
    · intro a ha
      cases ha
      rfl
    · intro a ha
      have h' : ')' = a := by simpa using ha
      subst h'
      rfl
  | constPtr s hs ih =>
    constructor
    · intro a ha
      rw [show ("*const ".data ++ s : Str) = '*' :: ("const ".data ++ s) from rfl] at ha
      cases ha
      rfl
    · intro a ha
      rw [List.getLast?_append_of_ne_nil _ (WFType_ne_nil hs)] at ha
      exact ih.2 a ha
  | mutPtr s hs ih =>
    constructor
    · intro a ha
      rw [show ("*mut ".data ++ s : Str) = '*' :: ("mut ".data ++ s) from rfl] at ha
      cases ha
      rfl
    · intro a ha
      rw [List.getLast?_append_of_ne_nil _ (WFType_ne_nil hs)] at ha
      exact ih.2 a ha

theorem WFType_no_colon {s : Str} (h : WFType s) : ':' ∉ s := by
  induction h with
  | base s hne hw => exact word_no_colon hw
  | unit => decide
  | constPtr s hs ih =>
    intro hmem
    rcases List.mem_append.mp hmem with h1 | h2
    · exact absurd h1 (by decide)
    · exact ih h2
  | mutPtr s hs ih =>
    intro hmem
    rcases List.mem_append.mp hmem with h1 | h2
    · exact absurd h1 (by decide)
    · exact ih h2

theorem begins_mut_not_const (s : Str) :
    begins "*const ".data ("*mut ".data ++ s) = false := by
  show begins ('*' :: 'c' :: "onst ".data) ('*' :: 'm' :: ("ut ".data ++ s)) = false
  rw [begins, if_pos rfl, begins, if_neg (by decide)]

theorem goodOut_ptr_out (c tail : Str) (hc : goodOut c)
    (htail : ∃ u, tail = ' ' :: u)
    (hstar : '*' ∈ tail)
    (hlast : tail.getLast? = some '*')
    (hH0 : hasSub "Handle".data tail = false)
    (hcol0 : ':' ∉ tail) :
    goodOut (c ++ tail) := by
  obtain ⟨hfix, hne, hedge, hH, hcol⟩ := hc
  obtain ⟨u, rfl⟩ := htail
  obtain ⟨y, c', rfl⟩ : ∃ y c', c = y :: c' := by
    cases c with
    | nil => exact absurd rfl hne
    | cons y c' => exact ⟨y, c', rfl⟩
  have hy := edgeOk_head hedge (rfl : (y :: c').head? = some y)
  have htne : (' ' :: u : Str) ≠ [] := by simp
  have hlast_o : ((y :: c') ++ ' ' :: u).getLast? = some '*' := by
    rw [List.getLast?_append_of_ne_nil _ htne]
    exact hlast
  have hne_o : ((y :: c') ++ ' ' :: u : Str) ≠ [] := by simp
  have hedge_o : edgeOk ((y :: c') ++ ' ' :: u) = true := by
    apply edgeOk_intro
    · intro a ha
      cases ha
      exact hy
    · intro a ha
      rw [hlast_o] at ha
      cases ha
      rfl
  have hstrip : strip ((y :: c') ++ ' ' :: u) = (y :: c') ++ ' ' :: u := by
    apply strip_eq_self_of_edges
    · intro a ha
      cases ha
      exact hy.1
    · intro a ha
      rw [hlast_o] at ha
      cases ha
      rfl
  have hH_o : hasSub "Handle".data ((y :: c') ++ ' ' :: u) = false :=
    hasSub_append_space_false _ _ _ (by decide) hH hH0
  have hcol_o : ':' ∉ (y :: c') ++ ' ' :: u := by
    intro hm
    rcases List.mem_append.mp hm with h1 | h2
    · exact hcol h1
    · exact hcol0 h2
  have hlk : lookupTM TYPE_MAP (strip ((y :: c') ++ ' ' :: u)) = none := by
    rw [hstrip]
    exact lookupTM_none_of_star _ (List.mem_append.mpr (Or.inr hstar))
  have h1 : begins "*const ".data (strip ((y :: c') ++ ' ' :: u)) = false := by
    rw [hstrip]
    show begins ('*' :: "const ".data) ((y :: c') ++ ' ' :: u) = false
    exact begins_false_of_head '*' "const ".data _ y rfl (Ne.symm hy.2)
  have h2 : begins "*mut ".data (strip ((y :: c') ++ ' ' :: u)) = false := by
    rw [hstrip]
    show begins ('*' :: "mut ".data) ((y :: c') ++ ' ' :: u) = false
    exact begins_false_of_head '*' "mut ".data _ y rfl (Ne.symm hy.2)
  have h3 : hasSub "Handle".data (strip ((y :: c') ++ ' ' :: u)) = false := by
    rw [hstrip]
    exact hH_o
  have h5 : hasSub "::".data (strip ((y :: c') ++ ' ' :: u)) = false := by
    rw [hstrip]
    cases hh : hasSub "::".data ((y :: c') ++ ' ' :: u) with
    | false => rfl
    | true => exact absurd (colon_mem_of_hasSub _ hh) hcol_o
  have hconv : convert_rust_type_to_c ((y :: c') ++ ' ' :: u) = (y :: c') ++ ' ' :: u := by
    by_cases h4 : (begins "fz_".data (strip ((y :: c') ++ ' ' :: u))
        || begins "pdf_".data (strip ((y :: c') ++ ' ' :: u))) = true
    · rw [convert_struct_branch _ hlk h1 h2 h3 h4, hstrip]
    · rw [Bool.not_eq_true] at h4
      rw [convert_default_branch _ hlk h1 h2 h3 h4 h5, hstrip]
  exact ⟨hconv, hne_o, hedge_o, hH_o, hcol_o⟩

theorem convert_goodOut : ∀ s : Str, WFType s → goodOut (convert_rust_type_to_c s) := by
  intro s h
  induction h with
  | base s hne hw =>
    have hstrip : strip s = s := strip_eq_self_of_edges s
      (fun a ha => isWordChar_not_ws (hw a (List.mem_of_mem_head? ha)))
      (fun a ha => isWordChar_not_ws (hw a (getLast?_mem ha)))
    cases hlk : lookupTM TYPE_MAP (strip s) with
    | some v =>
      rw [convert_lookup_branch s v hlk]
      have hvals : ∀ v ∈ TYPE_MAP.map Prod.snd, goodOut v := by decide
      exact hvals v (lookupTM_mem_snd _ _ _ hlk)
    | none =>
      obtain ⟨x, xs, rfl⟩ : ∃ x xs, s = x :: xs := by
        cases s with
        | nil => exact absurd rfl hne
        | cons x xs => exact ⟨x, xs, rfl⟩
      have hx := hw x (List.mem_cons_self _ _)
      have h1 : begins "*const ".data (strip (x :: xs)) = false := by
        rw [hstrip]
        show begins ('*' :: "const ".data) (x :: xs) = false
        exact begins_false_of_head '*' "const ".data _ x rfl
          (Ne.symm (isWordChar_not_star hx))
      have h2 : begins "*mut ".data (strip (x :: xs)) = false := by
        rw [hstrip]
        show begins ('*' :: "mut ".data) (x :: xs) = false
        exact begins_false_of_head '*' "mut ".data _ x rfl
          (Ne.symm (isWordChar_not_star hx))
      have hnc : ':' ∉ (x :: xs : Str) := word_no_colon hw
      by_cases h3 : hasSub "Handle".data (strip (x :: xs)) = true
      · rw [convert_handle_branch _ hlk h1 h2 h3]
        decide
      · rw [Bool.not_eq_true] at h3
        have h5 : hasSub "::".data (strip (x :: xs)) = false := by
          rw [hstrip]
          cases hh : hasSub "::".data (x :: xs) with
          | false => rfl
          | true => exact absurd (colon_mem_of_hasSub _ hh) hnc
        have hconv : convert_rust_type_to_c (x :: xs) = x :: xs := by
          by_cases h4 : (begins "fz_".data (strip (x :: xs))
              || begins "pdf_".data (strip (x :: xs))) = true
          · rw [convert_struct_branch _ hlk h1 h2 h3 h4, hstrip]
          · rw [Bool.not_eq_true] at h4
            rw [convert_default_branch _ hlk h1 h2 h3 h4 h5, hstrip]
        rw [hconv]
        refine ⟨hconv, hne, ?_, by rwa [hstrip] at h3, hnc⟩
        exact edgeOk_intro _
          (fun a ha => ⟨isWordChar_not_ws (hw a (List.mem_of_mem_head? ha)),
            isWordChar_not_star (hw a (List.mem_of_mem_head? ha))⟩)
          (fun a ha => isWordChar_not_ws (hw a (getLast?_mem ha)))
  | unit => decide
  | constPtr s hs ih =>
    have hsne := WFType_ne_nil hs
    have hedges := WFType_edges hs
    have hsstrip : strip s = s := strip_eq_self_of_edges s hedges.1 hedges.2
    have hstrip : strip ("*const ".data ++ s) = "*const ".data ++ s := by
      apply strip_eq_self_of_edges
      · intro a ha
        rw [show ("*const ".data ++ s : Str) = '*' :: ("const ".data ++ s) from rfl] at ha
        cases ha
        rfl
      · intro a ha
        rw [List.getLast?_append_of_ne_nil _ hsne] at ha
        exact hedges.2 a ha
    have hlk : lookupTM TYPE_MAP (strip ("*const ".data ++ s)) = none := by
      rw [hstrip]
      apply lookupTM_none_of_star
      rw [show ("*const ".data ++ s : Str) = '*' :: ("const ".data ++ s) from rfl]
      exact List.mem_cons_self _ _
    have hbeg : begins "*const ".data (strip ("*const ".data ++ s)) = true := by
      rw [hstrip]
      exact begins_append_self _ _
    have hinner : constInner (strip ("*const ".data ++ s)) =
        if s = "c_char".data then "char".data else s := by
      rw [hstrip]
      have hdrop : ("*const ".data ++ s).drop 7 = s := by
        rw [show (7 : Nat) = ("*const ".data).length from rfl, List.drop_left]
      have hcond : (hasSub "::".data s && !begins "*".data s) = false := by
        cases hb : begins "*".data s with
        | true => simp [hb]
        | false =>
          have h5 : hasSub "::".data s = false := by
            cases hh : hasSub "::".data s with
            | false => rfl
            | true => exact absurd (colon_mem_of_hasSub _ hh) (WFType_no_colon hs)
          simp [h5]
      simp only [constInner, hdrop, hsstrip, hcond, Bool.false_eq_true, if_false]
    rw [convert_const_branch _ hlk hbeg, hinner]
    by_cases hcc : s = "c_char".data
    · rw [if_pos hcc]
      have hch : convert_rust_type_to_c "char".data = "char".data := by decide
      rw [hch, if_pos rfl]
      decide
    · rw [if_neg hcc]
      by_cases hch : convert_rust_type_to_c s = "char".data
      · rw [if_pos hch]
        decide
      · rw [if_neg hch]
        exact goodOut_ptr_out _ _ ih ⟨"const *".data, rfl⟩ (by decide) (by decide)
          (by decide) (by decide)
  | mutPtr s hs ih =>
    have hsne := WFType_ne_nil hs
    have hedges := WFType_edges hs
    have hsstrip : strip s = s := strip_eq_self_of_edges s hedges.1 hedges.2
    have hstrip : strip ("*mut ".data ++ s) = "*mut ".data ++ s := by
      apply strip_eq_self_of_edges
      · intro a ha
        rw [show ("*mut ".data ++ s : Str) = '*' :: ("mut ".data ++ s) from rfl] at ha
        cases ha
        rfl
      · intro a ha
        rw [List.getLast?_append_of_ne_nil _ hsne] at ha
        exact hedges.2 a ha
    have hlk : lookupTM TYPE_MAP (strip ("*mut ".data ++ s)) = none := by
      rw [hstrip]
      apply lookupTM_none_of_star
      rw [show ("*mut ".data ++ s : Str) = '*' :: ("mut ".data ++ s) from rfl]
      exact List.mem_cons_self _ _
    have h1 : begins "*const ".data (strip ("*mut ".data ++ s)) = false := by
      rw [hstrip]
      exact begins_mut_not_const s
    have h2 : begins "*mut ".data (strip ("*mut ".data ++ s)) = true := by
      rw [hstrip]
      exact begins_append_self _ _
    have hdrop : ("*mut ".data ++ s).drop 5 = s := by
      rw [show (5 : Nat) = ("*mut ".data).length from rfl, List.drop_left]
    rw [convert_mut_branch _ hlk h1 h2, hstrip, hdrop, hsstrip]
    exact goodOut_ptr_out _ _ ih ⟨"*".data, rfl⟩ (by decide) (by decide) (by decide)
      (by decide)

/-- C6 counterexample: conversion is not idempotent: `std::ffi::c_char`
converts to `c_char`, and converting the result again yields `char`. -/
theorem c6_idempotent_cex :
    convert_rust_type_to_c (convert_rust_type_to_c "std::ffi::c_char".data) ≠
      convert_rust_type_to_c "std::ffi::c_char".data := by decide

/-- C6 amended: conversion is idempotent on every well-formed type — a
non-empty base name of word characters, the unit type, or arbitrarily nested
`*const `/`*mut ` pointers over these; a fully qualified path defeats
idempotence (`std::ffi::c_char` → `c_char` → `char`). -/
theorem c6_idempotent_on_wf (s : Str) (h : WFType s) :
    convert_rust_type_to_c (convert_rust_type_to_c s) = convert_rust_type_to_c s :=
  (convert_goodOut s h).1

/-- Witness for `c6_idempotent_on_wf` at a nested pointer type. -/
theorem c6_idempotent_on_wf_witness :
    convert_rust_type_to_c (convert_rust_type_to_c "*const *mut c_int".data) =
      convert_rust_type_to_c "*const *mut c_int".data :=
  c6_idempotent_on_wf "*const *mut c_int".data
    (by
      rw [show ("*const *mut c_int".data : Str) =
        "*const ".data ++ ("*mut ".data ++ "c_int".data) from rfl]
      exact WFType.constPtr _ (WFType.mutPtr _ (WFType.base _ (by decide) (by decide))))

/-! ### Module classification, header rendering and master headers
(lines 206-306, 344-352, 366-447) -/

/-- The `fitz_modules` set (lines 300-304). -/
def fitz_modules : List Str :=
  ["geometry".data, "buffer".data, "stream".data, "output".data, "colorspace".data,
   "pixmap".data, "font".data, "image".data, "path".data, "text".data, "device".data,
   "display_list".data, "link".data, "archive".data, "cookie".data, "context".data]

/-- The `pdf_modules` set (line 306). -/
def pdf_modules : List Str :=
  ["annot".data, "form".data, "document".data, "pdf_object".data]

/-- Line 350: a module goes under the `pdf` namespace iff its name is in
`pdf_modules` or one of its functions has a `pdf_`-prefixed name. -/
def is_pdf_module (module : Str) (functions : List FuncInfo) : Bool :=
  pdf_modules.contains module || functions.any (fun f => begins "pdf_".data f.name)

/-- Python string comparison (used by `sorted`): lexicographic by code
point. -/
def lexLe : Str → Str → Bool
  | [], _ => true
  | _ :: _, [] => false
  | a :: as, b :: bs => if a < b then true else if a = b then lexLe as bs else false

def strLe (a b : Str) : Prop := lexLe a b = true

instance : DecidableRel strLe := fun a b => inferInstanceAs (Decidable (lexLe a b = true))

theorem lexLe_total : ∀ a b : Str, lexLe a b = true ∨ lexLe b a = true := by
  intro a
  induction a with
  | nil => intro b; left; rfl
  | cons x as ih =>
    intro b
    cases b with
    | nil => right; rfl
    | cons y bs =>
      rcases lt_trichotomy x y with h | h | h
      · left
        rw [lexLe, if_pos h]
      · subst h
        rcases ih bs with h' | h'
        · left
          rw [lexLe, if_neg (lt_irrefl x), if_pos rfl]
          exact h'
        · right
          rw [lexLe, if_neg (lt_irrefl x), if_pos rfl]
          exact h'
      · right
        rw [lexLe, if_pos h]

theorem lexLe_trans : ∀ a b c : Str,
    lexLe a b = true → lexLe b c = true → lexLe a c = true := by
  intro a
  induction a with
  | nil => intro b c _ _; rfl
  | cons x as ih =>
    intro b c hab hbc
    cases b with
    | nil => exact absurd hab (by simp [lexLe])
    | cons y bs =>
      cases c with
      | nil => exact absurd hbc (by simp [lexLe])
      | cons z cs =>
        rw [lexLe] at hab hbc ⊢
        by_cases hxy : x < y
        · by_cases hyz : y < z
          · rw [if_pos (lt_trans hxy hyz)]
          · by_cases hyz2 : y = z
            · subst hyz2
              rw [if_pos hxy]
            · rw [if_neg hyz, if_neg hyz2] at hbc
              exact absurd hbc (by simp)
        · by_cases hxy2 : x = y
          · subst hxy2
            rw [if_neg hxy, if_pos rfl] at hab
            by_cases hyz : x < z
            · rw [if_pos hyz]
            · by_cases hyz2 : x = z
              · subst hyz2
                rw [if_neg hyz, if_pos rfl] at hbc ⊢
                exact ih bs cs hab hbc
              · rw [if_neg hyz, if_neg hyz2] at hbc
                exact absurd hbc (by simp)
          · rw [if_neg hxy, if_neg hxy2] at hab
            exact absurd hab (by simp)

theorem lexLe_antisymm : ∀ a b : Str, lexLe a b = true → lexLe b a = true → a = b := by
  intro a
  induction a with
  | nil =>
    intro b _ hba
    cases b with
    | nil => rfl
    | cons y bs => exact absurd hba (by simp [lexLe])
  | cons x as ih =>
    intro b hab hba
    cases b with
    | nil => exact absurd hab (by simp [lexLe])
    | cons y bs =>
      rw [lexLe] at hab hba
      by_cases hxy : x < y
      · rw [if_neg (asymm hxy), if_neg (ne_of_gt hxy)] at hba
        exact absurd hba (by simp)
      · by_cases hxy2 : x = y
        · subst hxy2
          rw [if_neg hxy, if_pos rfl] at hab hba
          rw [ih bs hab hba]
        · rw [if_neg hxy, if_neg hxy2] at hab
          exact absurd hab (by simp)

instance : IsTotal Str strLe := ⟨lexLe_total⟩

instance : IsTrans Str strLe := ⟨lexLe_trans⟩

instance : IsAntisymm Str strLe := ⟨lexLe_antisymm⟩

/-- `sorted(functions, key=lambda f: f['name'])` compares by name. -/
def funLe (f g : FuncInfo) : Prop := lexLe f.name g.name = true

instance : DecidableRel funLe :=
  fun f g => inferInstanceAs (Decidable (lexLe f.name g.name = true))

instance : IsTotal FuncInfo funLe := ⟨fun f g => lexLe_total f.name g.name⟩

instance : IsTrans FuncInfo funLe := ⟨fun _ _ _ hfg hgh => lexLe_trans _ _ _ hfg hgh⟩

/-- `str.upper()` for the ASCII module names. -/
def upperStr (s : Str) : Str := s.map Char.toUpper

/-- `str.capitalize()`: first character upper-cased, the rest lower-cased. -/
def capitalizeStr : Str → Str
  | [] => []
  | c :: rest => c.toUpper :: rest.map Char.toLower

/-- Decimal rendering of `len(functions)` in the banner. -/
def natStr (n : Nat) : Str := (Nat.repr n).data

/-- The 76-character rule of `=` signs in the banner comments
(lines 226-228). -/
def eqRow : Str := List.replicate 76 '='

/-- `sorted(functions, key=lambda f: f['name'])` (lines 233 and 275). -/
def sortedFuncs (functions : List FuncInfo) : List FuncInfo :=
  List.insertionSort funLe functions

/-- The declaration block: each declaration plus a newline (lines 233-234). -/
def declBlock (functions : List FuncInfo) : Str :=
  ((sortedFuncs functions).map (fun f => f.declaration ++ ['\n'])).flatten

/-- `generate_module_header` (lines 206-244). -/
def generate_module_header (module_name : Str) (functions : List FuncInfo)
    ( is_pdf : Bool) : Str :=
  let p := if is_pdf then "pdf".data else "fitz".data
  let guard := "MUPDF_".data ++ upperStr p ++ "_".data ++ upperStr module_name ++ "_H".data
  "// MicroPDF - MuPDF API Compatible C Header\n// Auto-generated from Rust FFI - DO NOT EDIT MANUALLY\n// Module: ".data
    ++ module_name
    ++ "\n\n#ifndef ".data ++ guard
    ++ "\n#define ".data ++ guard
    ++ "\n\n#include <stdint.h>\n#include <stddef.h>\n#include <stdbool.h>\n\n#ifdef __cplusplus\nextern \"C\" \x7b\n#endif\n\n// ".data ++ eqRow ++ "\n// ".data
    ++ capitalizeStr module_name
    ++ " Functions (".data ++ natStr functions.length
    ++ " total)\n// ".data ++ eqRow ++ "\n\n".data
    ++ declBlock functions
    ++ "\n#ifdef __cplusplus\n\x7d\n#endif\n\n#endif /* ".data ++ guard ++ " */\n".data

/-- `generate_enhanced_header` (lines 246-286). -/
def generate_enhanced_header (module_name : Str) (functions : List FuncInfo) : Str :=
  let guard := "MICROPDF_".data ++ upperStr module_name ++ "_H".data
  "// MicroPDF - Enhanced/Extended Functions\n// Auto-generated from Rust FFI - DO NOT EDIT MANUALLY\n// Module: ".data
    ++ module_name
    ++ "\n//\n// These are MicroPDF-specific extensions beyond MuPDF compatibility.\n// All functions are prefixed with mp_* to distinguish from MuPDF functions.\n\n#ifndef ".data
    ++ guard
    ++ "\n#define ".data ++ guard
    ++ "\n\n#include <stdint.h>\n#include <stddef.h>\n#include <stdbool.h>\n\n#ifdef __cplusplus\nextern \"C\" \x7b\n#endif\n\n// ".data ++ eqRow ++ "\n// ".data
    ++ capitalizeStr module_name
    ++ " Functions (".data ++ natStr functions.length
    ++ " total)\n// ".data ++ eqRow ++ "\n\n".data
    ++ declBlock functions
    ++ "\n#ifdef __cplusplus\n\x7d\n#endif\n\n#endif /* ".data ++ guard ++ " */\n".data

/-- One `#include` line of the fitz umbrella (line 387), newline included. -/
def fitz_include_line (module : Str) : Str :=
  "#include \"mupdf/fitz/".data ++ module ++ ".h\"\n".data

/-- The include lines accumulated into `fitz.h` (lines 382-387): every sorted
module except `enhanced` that satisfies `module in fitz_modules or not
(module in pdf_modules)` — the generator's `any(module in pdf_modules for _
in [1])` is just that membership test. -/
def fitz_include_lines (all_modules : List Str) : List Str :=
  (List.insertionSort strLe all_modules).filterMap (fun module =>
    if module = "enhanced".data then none
    else if fitz_modules.contains module || !(pdf_modules.contains module) then
      some (fitz_include_line module)
    else none)

/-- One `#include` line of the pdf umbrella (line 418), newline included. -/
def pdf_include_line (module : Str) : Str :=
  "#include \"mupdf/pdf/".data ++ module ++ ".h\"\n".data

/-- The include lines accumulated into `pdf.h` (lines 416-418). -/
def pdf_include_lines (all_modules : List Str) : List Str :=
  (List.insertionSort strLe all_modules).filterMap (fun module =>
    if pdf_modules.contains module then some (pdf_include_line module) else none)

theorem fitz_include_line_inj {m m' : Str}
    (h : fitz_include_line m = fitz_include_line m') : m = m' := by
  unfold fitz_include_line at h
  exact List.append_cancel_left (List.append_cancel_right h)

theorem pdf_include_line_inj {m m' : Str}
    (h : pdf_include_line m = pdf_include_line m') : m = m' := by
  unfold pdf_include_line at h
  exact List.append_cancel_left (List.append_cancel_right h)

theorem fitz_pdf_disjoint (m : Str) (h : fitz_modules.contains m = true) :
    pdf_modules.contains m = false := by
  have hm : m ∈ fitz_modules := List.elem_iff.mp h
  simp only [fitz_modules, List.mem_cons, List.not_mem_nil, or_false] at hm
  rcases hm with rfl | rfl | rfl | rfl | rfl | rfl | rfl | rfl | rfl | rfl | rfl | rfl |
    rfl | rfl | rfl | rfl <;> decide

theorem mem_fitz_include_lines (all_modules : List Str) (module : Str) :
    fitz_include_line module ∈ fitz_include_lines all_modules ↔
      module ∈ all_modules ∧ module ≠ "enhanced".data ∧
        pdf_modules.contains module = false := by
  unfold fitz_include_lines
  rw [List.mem_filterMap]
  constructor
  · rintro ⟨a, ha, hfa⟩
    have hmem : a ∈ all_modules := (List.perm_insertionSort strLe all_modules).mem_iff.mp ha
    by_cases he : a = "enhanced".data
    · rw [if_pos he] at hfa
      cases hfa
    · rw [if_neg he] at hfa
      by_cases hc : (fitz_modules.contains a || !(pdf_modules.contains a)) = true
      · rw [if_pos hc] at hfa
        have ha_eq : a = module := fitz_include_line_inj (Option.some.inj hfa)
        subst ha_eq
        refine ⟨hmem, he, ?_⟩
        cases hp : pdf_modules.contains a with
        | false => rfl
        | true =>
          rw [hp] at hc
          simp only [Bool.not_true, Bool.or_false] at hc
          have hd := fitz_pdf_disjoint a hc
          rw [hp] at hd
          exact Bool.noConfusion hd
      · rw [if_neg hc] at hfa
        cases hfa
  · rintro ⟨hmem, he, hc⟩
    refine ⟨module, (List.perm_insertionSort strLe all_modules).mem_iff.mpr hmem, ?_⟩
    rw [if_neg he, if_pos]
    · rw [hc]
      simp

theorem mem_pdf_include_lines (all_modules : List Str) (module : Str) :
    pdf_include_line module ∈ pdf_include_lines all_modules ↔
      module ∈ all_modules ∧ pdf_modules.contains module = true := by
  unfold pdf_include_lines
  rw [List.mem_filterMap]
  constructor
  · rintro ⟨a, ha, hfa⟩
    have hmem : a ∈ all_modules := (List.perm_insertionSort strLe all_modules).mem_iff.mp ha
    by_cases hc : pdf_modules.contains a = true
    · rw [if_pos hc] at hfa
      have ha_eq : a = module := pdf_include_line_inj (Option.some.inj hfa)
      subst ha_eq
      exact ⟨hmem, hc⟩
    · rw [if_neg hc] at hfa
      cases hfa
  · rintro ⟨hmem, hc⟩
    exact ⟨module, (List.perm_insertionSort strLe all_modules).mem_iff.mpr hmem,
      by rw [if_pos hc]⟩

/-! ### Claim C8 — module classification -/

/-- C8 counterexample: `buffer` is in the fixed core-API set, yet with one
`pdf_`-prefixed function it is classified document-API — membership in the
core set does not shield a module from the function-prefix test (line 350
never consults `fitz_modules`). -/
theorem c8_core_set_cex :
    "buffer".data ∈ fitz_modules ∧
    is_pdf_module "buffer".data
      [⟨"pdf_probe".data, "void".data, "void".data, "void pdf_probe(void);".data⟩]
      = true := by decide

/-- C8 amended: classification consults only the document-API set and the
function names: a module is document-API iff its name is in `pdf_modules` or
some function name begins with `pdf_`.  The fixed core-API set plays no role;
for any module outside `pdf_modules` — whether or not it is in the core set —
classification is exactly the prefix test. -/
theorem c8_classification_amended (module : Str) (functions : List FuncInfo)
    (h : pdf_modules.contains module = false) :
    (is_pdf_module module functions = true ↔
      ∃ f ∈ functions, begins "pdf_".data f.name = true) := by
  unfold is_pdf_module
  rw [h]
  simp [List.any_eq_true]

/-- Witness for `c8_classification_amended` at a concrete input. -/
theorem c8_classification_amended_witness :
    is_pdf_module "custom".data
        [⟨"pdf_probe".data, "void".data, "void".data, "void pdf_probe(void);".data⟩]
        = true ↔
      ∃ f ∈ [(⟨"pdf_probe".data, "void".data, "void".data,
          "void pdf_probe(void);".data⟩ : FuncInfo)],
        begins "pdf_".data f.name = true :=
  c8_classification_amended "custom".data _ (by decide)

/-! ### Claim C9 — umbrella headers -/

/-- C9 counterexample: the module `custom` (in neither fixed set) with one
`pdf_`-prefixed function is classified document-API, yet the fitz umbrella
includes its header and the pdf umbrella does not: the umbrella loops test
fixed-set membership, not the function-based classification. -/
theorem c9_umbrella_cex :
    is_pdf_module "custom".data
      [⟨"pdf_open".data, "void".data, "void".data, "void pdf_open(void);".data⟩]
      = true ∧
    fitz_include_lines ["custom".data] = [fitz_include_line "custom".data] ∧
    pdf_include_lines ["custom".data] = [] := by decide

/-- C9 amended: the fitz umbrella includes exactly the processed modules that
are not `enhanced` and not in the fixed `pdf_modules` set (the two fixed sets
are disjoint, so the generator's `module ∈ fitz_modules ∨ module ∉
pdf_modules` collapses to `module ∉ pdf_modules`), and the pdf umbrella
includes exactly the processed modules in `pdf_modules`; the function-based
classification used for header placement plays no role in either umbrella. -/
theorem c9_umbrella_amended (all_modules : List Str) (module : Str) :
    (fitz_include_line module ∈ fitz_include_lines all_modules ↔
      module ∈ all_modules ∧ module ≠ "enhanced".data ∧
        pdf_modules.contains module = false) ∧
    (pdf_include_line module ∈ pdf_include_lines all_modules ↔
      module ∈ all_modules ∧ pdf_modules.contains module = true) :=
  ⟨mem_fitz_include_lines all_modules module, mem_pdf_include_lines all_modules module⟩

/-! ### Claim C10 — determinism under reordering -/

theorem perm_any_eq {l₁ l₂ : List FuncInfo} (h : List.Perm l₁ l₂)
    (p : FuncInfo → Bool) : l₁.any p = l₂.any p := by
  rw [Bool.eq_iff_iff, List.any_eq_true, List.any_eq_true]
  constructor
  · rintro ⟨a, ha, hp⟩
    exact ⟨a, h.mem_iff.mp ha, hp⟩
  · rintro ⟨a, ha, hp⟩
    exact ⟨a, h.mem_iff.mpr ha, hp⟩

theorem sorted_perm_eq_of_nodup_names : ∀ l₁ l₂ : List FuncInfo,
    List.Perm l₁ l₂ → l₁.Sorted funLe → l₂.Sorted funLe →
    (l₁.map FuncInfo.name).Nodup → l₁ = l₂ := by
  intro l₁
  induction l₁ with
  | nil =>
    intro l₂ hp _ _ _
    exact (List.Perm.eq_nil hp.symm).symm
  | cons a t₁ ih =>
    intro l₂ hp hs₁ hs₂ hnd
    cases l₂ with
    | nil => exact absurd (List.Perm.eq_nil hp) (by simp)
    | cons b t₂ =>
      by_cases hab : a = b
      · subst hab
        have hp' := hp.cons_inv
        rw [List.sorted_cons] at hs₁ hs₂
        rw [List.map_cons, List.nodup_cons] at hnd
        rw [ih t₂ hp' hs₁.2 hs₂.2 hnd.2]
      · exfalso
        have ha2 : a ∈ b :: t₂ := hp.mem_iff.mp (List.mem_cons_self _ _)
        have hb1 : b ∈ a :: t₁ := hp.mem_iff.mpr (List.mem_cons_self _ _)
        have ha2' : a ∈ t₂ := by
          rcases List.mem_cons.mp ha2 with h | h
          · exact absurd h hab
          · exact h
        have hb1' : b ∈ t₁ := by
          rcases List.mem_cons.mp hb1 with h | h
          · exact absurd h.symm hab
          · exact h
        rw [List.sorted_cons] at hs₁ hs₂
        have h1 : lexLe a.name b.name = true := hs₁.1 b hb1'
        have h2 : lexLe b.name a.name = true := hs₂.1 a ha2'
        have heq := lexLe_antisymm _ _ h1 h2
        rw [List.map_cons, List.nodup_cons] at hnd
        exact hnd.1 (heq.symm ▸ List.mem_map_of_mem FuncInfo.name hb1')

theorem sortedFuncs_perm_eq {fs fs' : List FuncInfo} (hperm : List.Perm fs fs')
    (hnames : (fs.map FuncInfo.name).Nodup) : sortedFuncs fs = sortedFuncs fs' := by
  apply sorted_perm_eq_of_nodup_names
  · exact (List.perm_insertionSort _ fs).trans
      (hperm.trans (List.perm_insertionSort _ fs').symm)
  · exact List.sorted_insertionSort _ fs
  · exact List.sorted_insertionSort _ fs'
  · exact (((List.perm_insertionSort funLe fs).map FuncInfo.name).nodup_iff).mpr hnames

/-- C10: render-time sorting neutralises accumulation order: when the function
names of a module are unique, permuting its accumulated function list leaves
the rendered module header, the enhanced header and the classification bit
unchanged, and permuting the discovered module list leaves both umbrella
include-line lists unchanged. -/
theorem c10_render_determinism (module : Str) (b : Bool)
    (fs fs' : List FuncInfo) (mods mods' : List Str)
    (hperm : List.Perm fs fs') (hnames : (fs.map FuncInfo.name).Nodup)
    (hmods : List.Perm mods mods') :
    generate_module_header module fs b = generate_module_header module fs' b ∧
    generate_enhanced_header module fs = generate_enhanced_header module fs' ∧
    is_pdf_module module fs = is_pdf_module module fs' ∧
    fitz_include_lines mods = fitz_include_lines mods' ∧
    pdf_include_lines mods = pdf_include_lines mods' := by
  have hsort := sortedFuncs_perm_eq hperm hnames
  have hlen := hperm.length_eq
  have hmods_eq : List.insertionSort strLe mods = List.insertionSort strLe mods' :=
    List.eq_of_perm_of_sorted
      ((List.perm_insertionSort _ mods).trans
        (hmods.trans (List.perm_insertionSort _ mods').symm))
      (List.sorted_insertionSort _ mods) (List.sorted_insertionSort _ mods')
  refine ⟨?_, ?_, ?_, ?_, ?_⟩
  · simp only [generate_module_header, declBlock, hsort, hlen]
  · simp only [generate_enhanced_header, declBlock, hsort, hlen]
  · unfold is_pdf_module
    rw [perm_any_eq hperm]
  · unfold fitz_include_lines
    rw [hmods_eq]
  · unfold pdf_include_lines
    rw [hmods_eq]

/-- A sample function descriptor used by the determinism witness. -/
def demoFA : FuncInfo := ⟨"fz_a".data, "void".data, "void".data, "void fz_a(void);".data⟩

/-- A second sample function descriptor used by the determinism witness. -/
def demoFB : FuncInfo := ⟨"fz_b".data, "void".data, "void".data, "void fz_b(void);".data⟩

/-- Witness for `c10_render_determinism` at concrete permuted inputs. -/
theorem c10_render_determinism_witness :
    generate_module_header "demo".data [demoFB, demoFA] false =
        generate_module_header "demo".data [demoFA, demoFB] false ∧
    generate_enhanced_header "demo".data [demoFB, demoFA] =
        generate_enhanced_header "demo".data [demoFA, demoFB] ∧
    is_pdf_module "demo".data [demoFB, demoFA] =
        is_pdf_module "demo".data [demoFA, demoFB] ∧
    fitz_include_lines ["geometry".data, "annot".data] =
        fitz_include_lines ["annot".data, "geometry".data] ∧
    pdf_include_lines ["geometry".data, "annot".data] =
        pdf_include_lines ["annot".data, "geometry".data] :=
  c10_render_determinism "demo".data false [demoFB, demoFA] [demoFA, demoFB]
    ["geometry".data, "annot".data] ["annot".data, "geometry".data]
    (by decide) (by decide) (by decide)

end GenHeaders
